import Mathlib

/-!
Verification development for the two-tier Ollama proxy (Gateway + Worker).

The definitions below are a shallow embedding of the Go sources:
worker/main.go (chunk store, admission controller, job executor, worker
HTTP handlers) and the gateway source (streaming and non-streaming
chat-completion translation, auth check).  Redis is modelled as a pure
per-job store: a field hash for job metadata, an ordered list for the
chunk log, and an integer sequence counter.  Stateful Go code becomes
explicit state passing; the admission-controller race is modelled as a
small-step transition relation.
-/

/-- Models ChunkData from worker/main.go: one chunk of the per-job log.
Go int fields are modelled as Int; absent optional JSON fields are the
empty string, matching the Go zero values. -/
structure ChunkData where
  seq : Int
  delta : String
  done : Bool
  finishReason : String
  error : String
deriving DecidableEq

/-- Models a Redis hash (field to value map) as an association list with
unique fields, as used for the job meta key. -/
def Hash : Type := List (String × String)

instance : DecidableEq Hash := inferInstanceAs (DecidableEq (List (String × String)))

/-- Models HSET of one field: replace the value of an existing field, or
append a new field. -/
def hset : List (String × String) → String → String → List (String × String)
  | [], fld, v => [(fld, v)]
  | (f, w) :: rest, fld, v =>
    if f = fld then (f, v) :: rest else (f, w) :: hset rest fld v

/-- Models reading one field of a Redis hash through HGetAll followed by a
Go map access: a missing field yields the empty string (the Go zero value). -/
def hget : List (String × String) → String → String
  | [], _ => ""
  | (f, v) :: rest, fld => if f = fld then v else hget rest fld

/-- Models the per-job slice of the Redis keyspace used by Storage in
worker/main.go: the meta hash (job:id:meta), the ordered chunk log
(job:id:chunks, RPush list of JSON chunks, modelled decoded), and the
sequence counter (job:id:seq, INCR counter). -/
structure JobStore where
  meta : List (String × String)
  chunks : List ChunkData
  seq : Int
deriving DecidableEq

/-- A store in which the job id was never written: all keys absent. -/
def emptyJobStore : JobStore := ⟨[], [], 0⟩

/-- Models time.Now().Format(time.RFC3339); the concrete timestamp value
is irrelevant to every claim, only that it is a nonempty string. -/
def timeNow : String := "t0"

/-- Models Storage.UpdateJobStatus: HSET of the status field, plus the
completed_at and error fields when the arguments are nonempty. -/
def updateJobStatus (st : JobStore) (status completedAt errorMsg : String) :
    JobStore :=
  let m := hset st.meta "status" status
  let m := if completedAt ≠ "" then hset m "completed_at" completedAt else m
  let m := if errorMsg ≠ "" then hset m "error" errorMsg else m
  { st with meta := m }

/-- Models Storage.CreateJob: HSET of status, model and created_at. -/
def storageCreateJob (st : JobStore) (status model createdAt : String) :
    JobStore :=
  { st with
    meta := hset (hset (hset st.meta "status" status) "model" model)
      "created_at" createdAt }

/-- Models Storage.AddChunk: RPUSH of the encoded chunk onto the log. -/
def addChunk (st : JobStore) (c : ChunkData) : JobStore :=
  { st with chunks := st.chunks ++ [c] }

/-- Models Storage.IncrSeq: atomic INCR returning the new counter value. -/
def incrSeq (st : JobStore) : Int × JobStore :=
  (st.seq + 1, { st with seq := st.seq + 1 })

/-- Models the JobMeta record decoded by Storage.GetJobMeta. -/
structure JobMeta where
  status : String
  model : String
  createdAt : String
  completedAt : String
  error : String
deriving DecidableEq

/-- Models Storage.GetJobMeta: HGetAll of the meta hash; an empty result
means the job does not exist (none); otherwise each field is read with
the empty string as default. -/
def getJobMeta (st : JobStore) : Option JobMeta :=
  if st.meta = [] then none
  else some ⟨hget st.meta "status", hget st.meta "model",
    hget st.meta "created_at", hget st.meta "completed_at",
    hget st.meta "error"⟩

/-- Models the accumulation loop of Storage.GetChunks: walk the stored
log in insertion order, keep chunks with seq strictly greater than
fromSeq, and stop once 1000 chunks have been collected.  The Nat
argument is the number of chunks collected so far.  Chunks that fail
JSON decoding are skipped in Go; the model stores decoded chunks, so
every entry is valid. -/
def getChunksAux (fromSeq : Int) : List ChunkData → Nat → List ChunkData
  | [], _ => []
  | c :: rest, n =>
    if fromSeq < c.seq then
      if 1000 ≤ n + 1 then [c] else c :: getChunksAux fromSeq rest (n + 1)
    else getChunksAux fromSeq rest n

/-- Models Storage.GetChunks on the decoded log. -/
def getChunks (l : List ChunkData) (fromSeq : Int) : List ChunkData :=
  getChunksAux fromSeq l 0

/-- Models one decoded Ollama stream record, flattening the nested
message.content field of OllamaStreamResponse in worker/main.go. -/
structure OllamaStreamResponse where
  content : String
  done : Bool
  doneReason : String
deriving DecidableEq

/-- Models the classification of one scanner line inside the streaming
loop of Worker.processJob (trim, data: prefix test, payload test, JSON
decode): skip is a blank or non data line, eos is an empty payload or a
DONE marker, malformed is a payload that fails to decode, and rec is a
successfully decoded record. -/
inductive ScanItem where
  | skip
  | eos
  | malformed
  | record (r : OllamaStreamResponse)
deriving DecidableEq

/-- Models Worker.finishJobWithError: allocate the next seq, append a
synthetic terminal chunk (done true, finish_reason error, the message in
the error field), and set the job status to failed with a terminal
timestamp. -/
def finishJobWithError (st : JobStore) (errorMsg : String) : JobStore :=
  let p := incrSeq st
  let st2 := addChunk p.2 ⟨p.1, "", true, "error", errorMsg⟩
  updateJobStatus st2 "failed" timeNow errorMsg

/-- Models the scanner loop of Worker.processJob.  cancelAt is the
iteration index from which Worker.isCancelled becomes true (the
cancellation registry is monotone, so visibility is modelled as a
threshold); i is the current iteration index; fr is the loop variable
finishReason (initialised to stop by the caller); tailErr models
scanner.Err() when the line stream is exhausted without a break (none
means clean EOF).  SetTTL only adjusts key expiry and is not modelled. -/
def execLoop (cancelAt : Nat) (tailErr : Option String) :
    Nat → String → JobStore → List ScanItem → JobStore
  | _, _, st, [] =>
    match tailErr with
    | some msg => finishJobWithError st msg
    | none => updateJobStatus st "completed" timeNow ""
  | i, fr, st, item :: rest =>
    if cancelAt ≤ i then finishJobWithError st "cancelled"
    else
      match item with
      | .skip => execLoop cancelAt tailErr (i + 1) fr st rest
      | .eos => updateJobStatus st "completed" timeNow ""
      | .malformed => finishJobWithError st "decode error"
      | .record r =>
        let p := incrSeq st
        let fr2 := if r.done then
            (if r.doneReason = "length" then "length" else fr) else fr
        let c : ChunkData := ⟨p.1, r.content, r.done,
          if r.done then fr2 else "", ""⟩
        let st2 := addChunk p.2 c
        if r.done then updateJobStatus st2 "completed" timeNow ""
        else execLoop cancelAt tailErr (i + 1) fr2 st2 rest

/-- Models the outcome of the upstream HTTP call in Worker.processJob:
either the request or status check fails before any line is read, or a
body is obtained whose lines classify as the given items, possibly
terminated by a scanner read error. -/
inductive UpstreamResult where
  | httpErr (msg : String)
  | body (items : List ScanItem) (tailErr : Option String)

/-- Models Worker.processJob after a successful GetJobMeta: set status
running, then either fail on the upstream call or run the scanner loop
with finishReason initialised to stop. -/
def processJob (cancelAt : Nat) (u : UpstreamResult) (st : JobStore) :
    JobStore :=
  let st1 := updateJobStatus st "running" "" ""
  match u with
  | .httpErr msg => finishJobWithError st1 msg
  | .body items tailErr => execLoop cancelAt tailErr 0 "stop" st1 items

/-- Models Worker.Enqueue as seen by a single sequential caller: reject
when active plus queued reaches maxQueueSize (the queue full error), or
when the channel of capacity maxQueueSize is full (the queue channel
full error); otherwise the send succeeds. -/
def enqueueOk (active queuedLen maxQueueSize : Nat) : Bool :=
  if maxQueueSize ≤ active + queuedLen then false
  else decide (queuedLen < maxQueueSize)

/-- Models the HTTP outcome of Server.CreateJob: status code, the error
code string of the JSON error body (empty on success), the resulting
per-job store of the fresh job id, and whether the job was enqueued. -/
structure CreateJobResult where
  code : Nat
  errCode : String
  store : JobStore
  enqueued : Bool
deriving DecidableEq

/-- Models Server.CreateJob for a fresh job id (uuid, so the per-job
store starts empty): write the meta hash (status queued, model,
created_at), write messages and options fields when present, then call
Enqueue; on enqueue failure set status failed and answer 429 with error
code rate_limit_exceeded, else answer 200.  The Go error text carries
the counter values; it is modelled as the fixed string queue full. -/
def serverCreateJob (active queuedLen concurrency : Nat) (model : String)
    (messages options : Option String) : CreateJobResult :=
  let st := storageCreateJob emptyJobStore "queued" model timeNow
  let st := match messages with
    | some m => { st with meta := hset st.meta "messages" m }
    | none => st
  let st := match options with
    | some o => { st with meta := hset st.meta "options" o }
    | none => st
  if enqueueOk active queuedLen (2 * concurrency) then ⟨200, "", st, true⟩
  else ⟨429, "rate_limit_exceeded",
    updateJobStatus st "failed" timeNow "queue full", false⟩

/-- Models Server.GetEvents: parse from_seq (none models an absent or
unparsable query parameter, leaving the default -1), answer 404 when the
job meta is missing, else answer the job status and the filtered chunks. -/
def serverGetEvents (st : JobStore) (fromSeqParam : Option Int) :
    Except Nat (String × List ChunkData) :=
  let fromSeq := fromSeqParam.getD (-1)
  match getJobMeta st with
  | none => Except.error 404
  | some m => Except.ok (m.status, getChunks st.chunks fromSeq)

/-- Models the StatusResponse JSON of Server.GetStatus. -/
structure StatusResponse where
  status : String
  createdAt : String
  completedAt : String
  error : String
deriving DecidableEq

/-- Models Server.GetStatus: 404 when the job meta is missing, else the
meta fields. -/
def serverGetStatus (st : JobStore) : Except Nat StatusResponse :=
  match getJobMeta st with
  | none => Except.error 404
  | some m => Except.ok ⟨m.status, m.createdAt, m.completedAt, m.error⟩

/-- Models Server.CancelJob: insert the id into the cancellation
registry, write status cancelled with a terminal timestamp, and answer
200 (the store model is infallible, so the 500 branch is unreachable). -/
def serverCancelJob (st : JobStore) (registry : List String)
    (jobId : String) : Nat × JobStore × List String :=
  (200, updateJobStatus st "cancelled" timeNow "", jobId :: registry)

/-- Models the in-process admission state of Worker: the active counter,
the channel queue length, and the snapshots (active, queued) read under
the mutex by Enqueue calls that have not yet reached their send or
reject point.  Worker.Enqueue reads the counters under the mutex,
releases it, and only then checks the load and sends on the channel, so
a snapshot can be stale at send time. -/
structure AdmState where
  active : Nat
  queue : Nat
  pending : List (Nat × Nat)
deriving DecidableEq

/-- Small-step transition relation of the admission controller with
concurrency N (maxQueueSize 2N, channel capacity 2N).  read models the
locked counter read at the top of Worker.Enqueue; send models a passed
load check followed by a successful channel send; rejectLoad models the
queue full error; rejectChan models the default branch of the select
(channel full); dequeue models a worker goroutine receiving a job and
incrementing active (conservatively fused into one step); finishJob
models processJob returning and active being decremented. -/
inductive AdmStep (N : Nat) : AdmState → AdmState → Prop
  | read (a q : Nat) (p : List (Nat × Nat)) :
      AdmStep N ⟨a, q, p⟩ ⟨a, q, (a, q) :: p⟩
  | send (a q : Nat) (l1 l2 : List (Nat × Nat)) (s : Nat × Nat)
      (hload : s.1 + s.2 < 2 * N) (hcap : q < 2 * N) :
      AdmStep N ⟨a, q, l1 ++ s :: l2⟩ ⟨a, q + 1, l1 ++ l2⟩
  | rejectLoad (a q : Nat) (l1 l2 : List (Nat × Nat)) (s : Nat × Nat)
      (hload : 2 * N ≤ s.1 + s.2) :
      AdmStep N ⟨a, q, l1 ++ s :: l2⟩ ⟨a, q, l1 ++ l2⟩
  | rejectChan (a q : Nat) (l1 l2 : List (Nat × Nat)) (s : Nat × Nat)
      (hload : s.1 + s.2 < 2 * N) (hcap : 2 * N ≤ q) :
      AdmStep N ⟨a, q, l1 ++ s :: l2⟩ ⟨a, q, l1 ++ l2⟩
  | dequeue (a q : Nat) (p : List (Nat × Nat)) :
      AdmStep N ⟨a, q + 1, p⟩ ⟨a + 1, q, p⟩
  | finishJob (a q : Nat) (p : List (Nat × Nat)) :
      AdmStep N ⟨a + 1, q, p⟩ ⟨a, q, p⟩

/-- States of the admission controller reachable from the idle state. -/
def AdmReachable (N : Nat) (s : AdmState) : Prop :=
  Relation.ReflTransGen (AdmStep N) ⟨0, 0, []⟩ s

deriving instance DecidableEq for Except

/-- Models strings.TrimPrefix from the Go standard library: drop the
leading occurrence of p when s starts with p, else return s unchanged.
Strings are handled through their character lists so every use reduces
in the kernel. -/
def goTrimPfx (p s : String) : String :=
  if p.data.isPrefixOf s.data then ⟨s.data.drop p.data.length⟩ else s

/-- Models Proxy1Server.validateAuth of the gateway: accept immediately
when key checking is disabled; reject an empty Authorization header as
missing; otherwise strip one leading Bearer prefix (with trailing
space) and compare with the configured key. -/
def validateAuth (required : Bool) (apiKey authHeader : String) :
    Except String Unit :=
  if required = false then Except.ok ()
  else if authHeader = "" then Except.error "missing authorization header"
  else if goTrimPfx "Bearer " authHeader = apiKey then Except.ok ()
  else Except.error "invalid api key"

/-- Models one SSE frame written by the gateway streaming handler: a
data frame carrying the delta content (none when the delta object is
left empty) and the finish_reason string, the DONE terminator frame, or
an error frame.  The constant id, created and model fields are the same
on every frame of one response and are omitted. -/
inductive SSEFrame where
  | data (delta : Option String) (finishReason : String)
  | done
  | sseErr (msg : String)
deriving DecidableEq

/-- Models the delta object construction in Proxy1Server.
handleStreamingChat: content is the chunk delta when nonempty, the
empty string when the delta is empty on a done chunk, and absent
otherwise. -/
def deltaContent (c : ChunkData) : Option String :=
  if c.delta ≠ "" then some c.delta
  else if c.done then some "" else none

/-- Models the chunk loop of Proxy1Server.handleStreamingChat over one
batch of events: returns the frames written, the final last_seq cursor,
and whether the handler returned (after an error frame or DONE). -/
def streamStep (s : Int) : List ChunkData → List SSEFrame × Int × Bool
  | [] => ([], s, false)
  | c :: rest =>
    if c.seq ≤ s then streamStep s rest
    else if c.error ≠ "" then ([SSEFrame.sseErr c.error], c.seq, true)
    else
      let t := if c.done then ([SSEFrame.done], c.seq, true)
        else streamStep c.seq rest
      (SSEFrame.data (deltaContent c) c.finishReason :: t.1, t.2)

/-- The frames written by the gateway chunk loop from cursor s. -/
def streamEmit (s : Int) (l : List ChunkData) : List SSEFrame :=
  (streamStep s l).1

/-- Models one successful poll of the worker events endpoint as seen by
the gateway: the job status and the returned chunk batch. -/
structure PollResp where
  status : String
  chunks : List ChunkData
deriving DecidableEq

/-- Models the outcome of Proxy1Server.handleNonStreamingChat: either
the single chat-completion envelope (content and finish_reason) or an
HTTP error answer with its status code and message. -/
inductive NSOutcome where
  | envelope (content finishReason : String)
  | httpError (code : Nat) (msg : String)
deriving DecidableEq

/-- Models the chunk loop of Proxy1Server.handleNonStreamingChat over
one batch: skip chunks at or below the cursor, fail with the chunk
error message, accumulate the delta, and on a done chunk record the
finish reason and break. -/
def nsFold : Int → String → String → List ChunkData →
    Except String (Int × String × String)
  | s, buf, fin, [] => Except.ok (s, buf, fin)
  | s, buf, fin, c :: rest =>
    if c.seq ≤ s then nsFold s buf fin rest
    else if c.error ≠ "" then Except.error c.error
    else if c.done then Except.ok (c.seq, buf ++ c.delta, c.finishReason)
    else nsFold c.seq (buf ++ c.delta) fin rest

/-- Models the polling loop of Proxy1Server.handleNonStreamingChat over
a finite trace of successful polls; exhausting the trace models the
overall deadline firing at the top of the loop (504).  Poll failures
only delay the loop and are not part of the trace. -/
def handleNonStreamingPolls : Int → String → String → List PollResp →
    NSOutcome
  | _, _, _, [] => NSOutcome.httpError 504 "timeout exceeded"
  | s, buf, fin, p :: rest =>
    match nsFold s buf fin p.chunks with
    | Except.error msg => NSOutcome.httpError 500 msg
    | Except.ok (s2, buf2, fin2) =>
      if p.status = "completed" then NSOutcome.envelope buf2 fin2
      else if p.status = "failed" ∨ p.status = "cancelled" then
        NSOutcome.httpError 500 ("job " ++ p.status)
      else handleNonStreamingPolls s2 buf2 fin2 rest

/-!  Theorems.  First the hash-model lemmas shared by several claims. -/

theorem hget_hset_self (h : List (String × String)) (f v : String) :
    hget (hset h f v) f = v := by
  induction h with
  | nil => simp [hset, hget]
  | cons p rest ih =>
    by_cases hf : p.1 = f
    · simp [hset, hget, hf]
    · simp [hset, hget, hf, ih]

theorem hget_hset_ne (h : List (String × String)) (f g v : String)
    (hne : f ≠ g) : hget (hset h f v) g = hget h g := by
  induction h with
  | nil => simp [hset, hget, hne]
  | cons p rest ih =>
    by_cases hf : p.1 = f
    · simp [hset, hget, hf, hne]
    · simp [hset, hget, hf, ih]

theorem hset_ne_nil (h : List (String × String)) (f v : String) :
    hset h f v ≠ [] := by
  cases h with
  | nil => simp [hset]
  | cons p rest =>
    by_cases hf : p.1 = f <;> simp [hset, hf]

theorem updateJobStatus_hget_status (st : JobStore) (s t e : String) :
    hget (updateJobStatus st s t e).meta "status" = s := by
  by_cases ht : t = "" <;> by_cases he : e = "" <;>
    simp [updateJobStatus, ht, he, hget_hset_self,
      hget_hset_ne _ "completed_at" "status" _ (by decide),
      hget_hset_ne _ "error" "status" _ (by decide)]

theorem updateJobStatus_chunks (st : JobStore) (s t e : String) :
    (updateJobStatus st s t e).chunks = st.chunks := rfl

theorem updateJobStatus_seq (st : JobStore) (s t e : String) :
    (updateJobStatus st s t e).seq = st.seq := rfl

theorem updateJobStatus_meta_ne_nil (st : JobStore) (s t e : String) :
    (updateJobStatus st s t e).meta ≠ [] := by
  by_cases ht : t = "" <;> by_cases he : e = "" <;>
    simp [updateJobStatus, ht, he, hset_ne_nil]

/-- Claim C10: cancelling any job id, even one for which no job was ever
created, answers 200 and writes status cancelled into the meta hash, so
a subsequent status request answers the cancelled status instead of
404.  The statement quantifies over every prior per-job store,
including the empty store of an unknown id. -/
theorem cancel_unknown_job_then_status_cancelled (st : JobStore)
    (registry : List String) (jobId : String) :
    (serverCancelJob st registry jobId).1 = 200 ∧
    ∃ resp, serverGetStatus (serverCancelJob st registry jobId).2.1 =
      Except.ok resp ∧ resp.status = "cancelled" := by
  refine ⟨rfl, ?_⟩
  have hne : (updateJobStatus st "cancelled" timeNow "").meta ≠ [] :=
    updateJobStatus_meta_ne_nil st "cancelled" timeNow ""
  have h1 : serverGetStatus (updateJobStatus st "cancelled" timeNow "") =
      Except.ok
        ⟨hget (updateJobStatus st "cancelled" timeNow "").meta "status",
         hget (updateJobStatus st "cancelled" timeNow "").meta "created_at",
         hget (updateJobStatus st "cancelled" timeNow "").meta "completed_at",
         hget (updateJobStatus st "cancelled" timeNow "").meta "error"⟩ := by
    unfold serverGetStatus getJobMeta
    rw [if_neg hne]
  exact ⟨_, h1, updateJobStatus_hget_status st "cancelled" timeNow ""⟩

/-- Claim C1, counterexample to the stated status: a job whose executor
observes cancellation after the first record does append a terminal
chunk with done true and error cancelled, but the stored status the
executor leaves behind is failed, not cancelled, because
Worker.finishJobWithError always writes StatusFailed. -/
theorem cancel_status_not_cancelled_cex :
    (processJob 1 (UpstreamResult.body
      [ScanItem.record ⟨"Hel", false, ""⟩, ScanItem.record ⟨"lo", false, ""⟩]
      none) emptyJobStore).chunks.getLast? =
      some ⟨2, "", true, "error", "cancelled"⟩ ∧
    hget (processJob 1 (UpstreamResult.body
      [ScanItem.record ⟨"Hel", false, ""⟩, ScanItem.record ⟨"lo", false, ""⟩]
      none) emptyJobStore).meta "status" = "failed" ∧
    hget (processJob 1 (UpstreamResult.body
      [ScanItem.record ⟨"Hel", false, ""⟩, ScanItem.record ⟨"lo", false, ""⟩]
      none) emptyJobStore).meta "status" ≠ "cancelled" := by
  decide

/-- Claim C2, counterexample to the stated store neutrality: with
concurrency 1, one active job and one queued job, a create-job request
is rejected with 429 rate_limit_exceeded, yet the handler has already
written the job meta hash (and then marks it failed), so the chunk
store is not left unchanged. -/
theorem createJob_overload_writes_meta_cex :
    (serverCreateJob 1 1 1 "m" none none).code = 429 ∧
    (serverCreateJob 1 1 1 "m" none none).errCode = "rate_limit_exceeded" ∧
    (serverCreateJob 1 1 1 "m" none none).enqueued = false ∧
    getJobMeta (serverCreateJob 1 1 1 "m" none none).store ≠ none ∧
    hget (serverCreateJob 1 1 1 "m" none none).store.meta "status" =
      "failed" := by
  decide

/-- Claim C3 (evidence of the admission race): with concurrency 1 the
state active 1, queued 2 is reachable, violating the documented bound
active + queued at most 2N.  The trace: one job is admitted and
dequeued (active 1); two Enqueue calls then both read the counters
under the mutex (snapshot active 1, queued 0) before either sends, both
pass the load check 1 + 0 < 2 against their stale snapshots, and both
channel sends succeed because the channel capacity is 2. -/
theorem admission_overshoot_reachable :
    ∃ s, AdmReachable 1 s ∧ 2 * 1 < s.active + s.queue := by
  refine ⟨⟨1, 2, []⟩, ?_, by decide⟩
  have h1 : AdmStep 1 ⟨0, 0, []⟩ ⟨0, 0, [(0, 0)]⟩ := AdmStep.read 0 0 []
  have h2 : AdmStep 1 ⟨0, 0, [(0, 0)]⟩ ⟨0, 1, []⟩ :=
    AdmStep.send 0 0 [] [] (0, 0) (by decide) (by decide)
  have h3 : AdmStep 1 ⟨0, 1, []⟩ ⟨1, 0, []⟩ := AdmStep.dequeue 0 0 []
  have h4 : AdmStep 1 ⟨1, 0, []⟩ ⟨1, 0, [(1, 0)]⟩ := AdmStep.read 1 0 []
  have h5 : AdmStep 1 ⟨1, 0, [(1, 0)]⟩ ⟨1, 0, [(1, 0), (1, 0)]⟩ :=
    AdmStep.read 1 0 [(1, 0)]
  have h6 : AdmStep 1 ⟨1, 0, [(1, 0), (1, 0)]⟩ ⟨1, 1, [(1, 0)]⟩ :=
    AdmStep.send 1 0 [] [(1, 0)] (1, 0) (by decide) (by decide)
  have h7 : AdmStep 1 ⟨1, 1, [(1, 0)]⟩ ⟨1, 2, []⟩ :=
    AdmStep.send 1 1 [] [] (1, 0) (by decide) (by decide)
  exact Relation.ReflTransGen.tail (Relation.ReflTransGen.tail
    (Relation.ReflTransGen.tail (Relation.ReflTransGen.tail
      (Relation.ReflTransGen.tail (Relation.ReflTransGen.tail
        (Relation.ReflTransGen.single h1) h2) h3) h4) h5) h6) h7

theorem execLoop_cancel_run (records : List OllamaStreamResponse) :
    ∀ (k i : Nat) (st : JobStore) (te : Option String),
      k < records.length → (∀ r ∈ records, r.done = false) →
      hget (execLoop (i + k) te i "stop" st
        (records.map ScanItem.record)).meta "status" = "failed" ∧
      (execLoop (i + k) te i "stop" st
        (records.map ScanItem.record)).chunks.getLast? =
        some ⟨st.seq + k + 1, "", true, "error", "cancelled"⟩ := by
  induction records with
  | nil =>
    intro k i st te hk _
    exact absurd hk (by simp)
  | cons r rs ih =>
    intro k i st te hk hdone
    cases k with
    | zero =>
      simp only [List.map_cons, execLoop, Nat.add_zero, le_refl, if_true]
      constructor
      · exact updateJobStatus_hget_status _ "failed" timeNow "cancelled"
      · show (updateJobStatus _ "failed" timeNow
          "cancelled").chunks.getLast? = _
        rw [updateJobStatus_chunks]
        show (st.chunks ++ [(⟨st.seq + 1, "", true, "error",
          "cancelled"⟩ : ChunkData)]).getLast? = _
        rw [List.getLast?_concat]
        norm_num
    | succ k1 =>
      have hcond : ¬(i + (k1 + 1) ≤ i) := by omega
      have hrd : r.done = false := hdone r (List.mem_cons_self r rs)
      simp only [List.map_cons, execLoop, if_neg hcond, hrd, Bool.false_eq_true,
        ite_false]
      have hca : i + (k1 + 1) = (i + 1) + k1 := by omega
      rw [hca]
      have := ih k1 (i + 1)
        (addChunk (incrSeq st).2 ⟨(incrSeq st).1, r.content, false, "", ""⟩)
        te (by simpa using Nat.lt_of_succ_lt_succ hk)
        (fun x hx => hdone x (List.mem_cons_of_mem r hx))
      refine ⟨this.1, ?_⟩
      rw [this.2]
      have hseq : (addChunk (incrSeq st).2
          ⟨(incrSeq st).1, r.content, false, "", ""⟩).seq = st.seq + 1 := rfl
      rw [hseq]
      have : st.seq + 1 + (k1 : Int) + 1 = st.seq + ((k1 : Nat) + 1 : Nat) + 1 := by
        push_cast
        ring
      rw [this]

/-- Claim C1, amended: when the executor observes an explicit
cancellation between records (visible from record index ca, before the
stream would otherwise end), it appends a terminal chunk with done
true, finish_reason error and error cancelled, and the stored status
the executor leaves behind is failed (the cancelled status written
earlier by the cancel endpoint is overwritten by
Worker.finishJobWithError). -/
theorem cancel_appends_cancelled_chunk_status_failed
    (records : List OllamaStreamResponse) (ca : Nat) (st : JobStore)
    (te : Option String) (h1 : ca < records.length)
    (h2 : ∀ r ∈ records, r.done = false) :
    hget (processJob ca (UpstreamResult.body (records.map ScanItem.record) te)
      st).meta "status" = "failed" ∧
    (processJob ca (UpstreamResult.body (records.map ScanItem.record) te)
      st).chunks.getLast? =
      some ⟨st.seq + ca + 1, "", true, "error", "cancelled"⟩ := by
  have h := execLoop_cancel_run records ca 0
    (updateJobStatus st "running" "" "") te h1 h2
  simp only [Nat.zero_add] at h
  show hget (execLoop ca te 0 "stop" _ _).meta "status" = "failed" ∧
    (execLoop ca te 0 "stop" _ _).chunks.getLast? = _
  rw [updateJobStatus_seq] at h
  exact h

/-- Witness for the amended claim C1 at a concrete one-record stream
cancelled before the first record. -/
theorem cancel_appends_cancelled_chunk_status_failed_wit :
    hget (processJob 0 (UpstreamResult.body
      [ScanItem.record ⟨"x", false, ""⟩] none) emptyJobStore).meta
      "status" = "failed" ∧
    (processJob 0 (UpstreamResult.body
      [ScanItem.record ⟨"x", false, ""⟩] none)
      emptyJobStore).chunks.getLast? =
      some ⟨1, "", true, "error", "cancelled"⟩ := by
  simpa using cancel_appends_cancelled_chunk_status_failed
    [(⟨"x", false, ""⟩ : OllamaStreamResponse)] 0 emptyJobStore none
    (by decide) (by decide)

/-- Claim C2, amended: when a create-job request arrives with active
plus queued at or above 2N, it is rejected with HTTP 429 and error code
rate_limit_exceeded and the job is never enqueued, but the handler has
already written the job meta hash before admission and then updates it
to status failed, so the chunk store is not left unchanged. -/
theorem createJob_overload_rejected_meta_failed
    (active queuedLen concurrency : Nat) (model : String)
    (messages options : Option String)
    (h : 2 * concurrency ≤ active + queuedLen) :
    (serverCreateJob active queuedLen concurrency model messages
      options).code = 429 ∧
    (serverCreateJob active queuedLen concurrency model messages
      options).errCode = "rate_limit_exceeded" ∧
    (serverCreateJob active queuedLen concurrency model messages
      options).enqueued = false ∧
    hget (serverCreateJob active queuedLen concurrency model messages
      options).store.meta "status" = "failed" := by
  have henq : enqueueOk active queuedLen (2 * concurrency) = false := by
    simp [enqueueOk, h]
  unfold serverCreateJob
  rw [henq]
  refine ⟨rfl, rfl, rfl, ?_⟩
  exact updateJobStatus_hget_status _ "failed" timeNow "queue full"

/-- Witness for the amended claim C2 at concurrency 2 with three active
and one queued job. -/
theorem createJob_overload_rejected_meta_failed_wit :
    (serverCreateJob 3 1 2 "gpt-oss:20b" none none).code = 429 ∧
    (serverCreateJob 3 1 2 "gpt-oss:20b" none none).errCode =
      "rate_limit_exceeded" ∧
    (serverCreateJob 3 1 2 "gpt-oss:20b" none none).enqueued = false ∧
    hget (serverCreateJob 3 1 2 "gpt-oss:20b" none none).store.meta
      "status" = "failed" :=
  createJob_overload_rejected_meta_failed 3 1 2 "gpt-oss:20b" none none
    (by decide)

theorem seqDense_addChunk (st : JobStore)
    (h1 : st.seq = (st.chunks.length : Int))
    (h2 : st.chunks.map ChunkData.seq =
      (List.range st.chunks.length).map fun j => (j : Int) + 1)
    (d : String) (dn : Bool) (f e : String) :
    (addChunk (incrSeq st).2 ⟨(incrSeq st).1, d, dn, f, e⟩).seq =
      ((addChunk (incrSeq st).2
        ⟨(incrSeq st).1, d, dn, f, e⟩).chunks.length : Int) ∧
    (addChunk (incrSeq st).2 ⟨(incrSeq st).1, d, dn, f, e⟩).chunks.map
        ChunkData.seq =
      (List.range (addChunk (incrSeq st).2
        ⟨(incrSeq st).1, d, dn, f, e⟩).chunks.length).map
        fun j => (j : Int) + 1 := by
  constructor
  · simp [addChunk, incrSeq, h1]
  · simp only [addChunk, incrSeq, List.map_append, List.length_append,
      List.length_singleton, List.range_succ, List.map_cons, List.map_nil, h2]
    simp [h1]

theorem seqDense_finishJobWithError (st : JobStore) (msg : String)
    (h1 : st.seq = (st.chunks.length : Int))
    (h2 : st.chunks.map ChunkData.seq =
      (List.range st.chunks.length).map fun j => (j : Int) + 1) :
    (finishJobWithError st msg).seq =
      ((finishJobWithError st msg).chunks.length : Int) ∧
    (finishJobWithError st msg).chunks.map ChunkData.seq =
      (List.range (finishJobWithError st msg).chunks.length).map
        fun j => (j : Int) + 1 := by
  have h := seqDense_addChunk st h1 h2 "" true "error" msg
  exact h

theorem seqDense_execLoop (items : List ScanItem) :
    ∀ (ca : Nat) (te : Option String) (i : Nat) (fr : String)
      (st : JobStore),
      st.seq = (st.chunks.length : Int) →
      st.chunks.map ChunkData.seq =
        (List.range st.chunks.length).map (fun j => (j : Int) + 1) →
      (execLoop ca te i fr st items).seq =
        ((execLoop ca te i fr st items).chunks.length : Int) ∧
      (execLoop ca te i fr st items).chunks.map ChunkData.seq =
        (List.range (execLoop ca te i fr st items).chunks.length).map
          fun j => (j : Int) + 1 := by
  induction items with
  | nil =>
    intro ca te i fr st h1 h2
    cases te with
    | none => exact ⟨h1, h2⟩
    | some msg => exact seqDense_finishJobWithError st msg h1 h2
  | cons item rest ih =>
    intro ca te i fr st h1 h2
    simp only [execLoop]
    by_cases hc : ca ≤ i
    · rw [if_pos hc]
      exact seqDense_finishJobWithError st "cancelled" h1 h2
    · rw [if_neg hc]
      cases item with
      | skip => exact ih ca te (i + 1) fr st h1 h2
      | eos => exact ⟨h1, h2⟩
      | malformed => exact seqDense_finishJobWithError st "decode error" h1 h2
      | record r =>
        by_cases hd : r.done
        · simp only [hd, if_true, ite_true]
          exact seqDense_addChunk st h1 h2 r.content true _ ""
        · simp only [hd, if_false, ite_false]
          have hdense := seqDense_addChunk st h1 h2 r.content false "" ""
          simp only [hd, ite_false] at hdense ⊢
          exact ih ca te (i + 1) fr
            (addChunk (incrSeq st).2 ⟨(incrSeq st).1, r.content, false, "", ""⟩)
            hdense.1 hdense.2

/-- Claim C5: for every upstream outcome and every cancellation point,
the chunk log written for a job (starting from the empty per-job store)
has sequence numbers exactly 1, 2, ..., K in insertion order: strictly
increasing, dense, starting at 1. -/
theorem chunkLog_seq_dense_from_one (ca : Nat) (u : UpstreamResult) :
    (processJob ca u emptyJobStore).chunks.map ChunkData.seq =
      (List.range (processJob ca u emptyJobStore).chunks.length).map
        fun j => (j : Int) + 1 := by
  cases u with
  | httpErr msg =>
    exact (seqDense_finishJobWithError
      (updateJobStatus emptyJobStore "running" "" "") msg rfl rfl).2
  | body items te =>
    exact (seqDense_execLoop items ca te 0 "stop"
      (updateJobStatus emptyJobStore "running" "" "") rfl rfl).2

theorem execLoop_chunks_extend (items : List ScanItem) :
    ∀ (ca : Nat) (te : Option String) (i : Nat) (fr : String)
      (st : JobStore),
      ∃ t, (execLoop ca te i fr st items).chunks = st.chunks ++ t := by
  induction items with
  | nil =>
    intro ca te i fr st
    cases te with
    | none => exact ⟨[], by simp [execLoop, updateJobStatus]⟩
    | some msg =>
      refine ⟨[⟨st.seq + 1, "", true, "error", msg⟩], ?_⟩
      simp [execLoop, finishJobWithError, updateJobStatus, addChunk, incrSeq]
  | cons item rest ih =>
    intro ca te i fr st
    simp only [execLoop]
    by_cases hc : ca ≤ i
    · rw [if_pos hc]
      refine ⟨[⟨st.seq + 1, "", true, "error", "cancelled"⟩], ?_⟩
      simp [finishJobWithError, updateJobStatus, addChunk, incrSeq]
    · rw [if_neg hc]
      cases item with
      | skip => exact ih ca te (i + 1) fr st
      | eos => exact ⟨[], by simp [updateJobStatus]⟩
      | malformed =>
        refine ⟨[⟨st.seq + 1, "", true, "error", "decode error"⟩], ?_⟩
        simp [finishJobWithError, updateJobStatus, addChunk, incrSeq]
      | record r =>
        by_cases hd : r.done
        · simp only [hd, if_true, ite_true]
          refine ⟨[⟨st.seq + 1, r.content, r.done,
            if r.doneReason = "length" then "length" else fr, ""⟩], ?_⟩
          simp [hd, updateJobStatus, addChunk, incrSeq]
        · have hd2 : r.done = false := by simpa using hd
          simp only [hd2, Bool.false_eq_true, if_false, ite_false]
          obtain ⟨t, ht⟩ := ih ca te (i + 1) fr
            (addChunk (incrSeq st).2 ⟨(incrSeq st).1, r.content, false, "", ""⟩)
          rw [ht]
          refine ⟨(⟨st.seq + 1, r.content, false, "", ""⟩ : ChunkData) :: t, ?_⟩
          simp [addChunk, incrSeq]

/-- Claim C6: whenever the executor translates an upstream record (the
cancellation registry not yet observed at this iteration; the loop
finish-reason variable holds its initial value stop, which the loop
never changes before a done record), the chunk it appends carries the
record delta text and done flag, and its finish_reason is length when
the backend done_reason is length and stop otherwise, set only on done
chunks; a non-final chunk gets the empty finish_reason. -/
theorem record_translated_chunk_shape (ca i : Nat) (st : JobStore)
    (r : OllamaStreamResponse) (rest : List ScanItem) (te : Option String)
    (h : i < ca) :
    ∃ t, (execLoop ca te i "stop" st (ScanItem.record r :: rest)).chunks =
      st.chunks ++ (⟨st.seq + 1, r.content, r.done,
        if r.done then (if r.doneReason = "length" then "length" else "stop")
        else "", ""⟩ : ChunkData) :: t := by
  have hc : ¬ ca ≤ i := by omega
  simp only [execLoop, if_neg hc]
  by_cases hd : r.done
  · simp only [hd, if_true, ite_true]
    exact ⟨[], by simp [updateJobStatus, addChunk, incrSeq, hd]⟩
  · have hd2 : r.done = false := by simpa using hd
    simp only [hd2, Bool.false_eq_true, if_false, ite_false]
    obtain ⟨t, ht⟩ := execLoop_chunks_extend rest ca te (i + 1) "stop"
      (addChunk (incrSeq st).2 ⟨(incrSeq st).1, r.content, false, "", ""⟩)
    rw [ht]
    exact ⟨t, by simp [addChunk, incrSeq]⟩

/-- Witness for claim C6 at a concrete length-stop record. -/
theorem record_translated_chunk_shape_wit :
    ∃ t, (execLoop 1 none 0 "stop" emptyJobStore
      [ScanItem.record ⟨"A", true, "length"⟩]).chunks =
      emptyJobStore.chunks ++
        (⟨emptyJobStore.seq + 1, "A", true, "length", ""⟩ : ChunkData) :: t := by
  simpa using record_translated_chunk_shape 1 0 emptyJobStore
    ⟨"A", true, "length"⟩ [] none (by decide)

theorem getChunksAux_mem (fromSeq : Int) (l : List ChunkData) :
    ∀ (n : Nat) (c : ChunkData),
      c ∈ getChunksAux fromSeq l n → fromSeq < c.seq := by
  induction l with
  | nil => intro n c h; simp [getChunksAux] at h
  | cons a rest ih =>
    intro n c h
    simp only [getChunksAux] at h
    by_cases ha : fromSeq < a.seq
    · rw [if_pos ha] at h
      by_cases hcap : 1000 ≤ n + 1
      · rw [if_pos hcap] at h
        simp at h
        exact h ▸ ha
      · rw [if_neg hcap] at h
        rcases List.mem_cons.mp h with h1 | h2
        · exact h1 ▸ ha
        · exact ih (n + 1) c h2
    · rw [if_neg ha] at h
      exact ih n c h

theorem getChunksAux_sublist (fromSeq : Int) (l : List ChunkData) :
    ∀ n : Nat, List.Sublist (getChunksAux fromSeq l n) l := by
  induction l with
  | nil => intro n; simp [getChunksAux]
  | cons a rest ih =>
    intro n
    simp only [getChunksAux]
    by_cases ha : fromSeq < a.seq
    · rw [if_pos ha]
      by_cases hcap : 1000 ≤ n + 1
      · rw [if_pos hcap]
        exact (List.nil_sublist rest).cons₂ a
      · rw [if_neg hcap]
        exact (ih (n + 1)).cons₂ a
    · rw [if_neg ha]
      exact (ih n).cons a

theorem getChunksAux_length (fromSeq : Int) (l : List ChunkData) :
    ∀ n : Nat, n < 1000 → (getChunksAux fromSeq l n).length ≤ 1000 - n := by
  induction l with
  | nil => intro n _; simp [getChunksAux]
  | cons a rest ih =>
    intro n hn
    simp only [getChunksAux]
    by_cases ha : fromSeq < a.seq
    · rw [if_pos ha]
      by_cases hcap : 1000 ≤ n + 1
      · rw [if_pos hcap]
        simp
        omega
      · rw [if_neg hcap]
        have := ih (n + 1) (by omega)
        simp only [List.length_cons]
        omega
    · rw [if_neg ha]
      have := ih n hn
      omega

/-- Claim C4: for every existing job and every integer N, the events
endpoint with from_seq N answers the job status together with chunks
that all have seq strictly greater than N, in ascending seq order
whenever the stored log is ascending (which claim C5 establishes for
logs the executor writes), and never more than 1000 of them. -/
theorem getEvents_fromSeq_filter_sorted_capped (st : JobStore) (N : Int)
    (hexists : st.meta ≠ [])
    (hsorted : st.chunks.Pairwise (fun a b => a.seq < b.seq)) :
    ∃ status chunks,
      serverGetEvents st (some N) = Except.ok (status, chunks) ∧
      (∀ c ∈ chunks, N < c.seq) ∧
      chunks.Pairwise (fun a b => a.seq < b.seq) ∧
      chunks.length ≤ 1000 := by
  unfold serverGetEvents getJobMeta
  rw [if_neg hexists]
  refine ⟨_, _, rfl, ?_, ?_, ?_⟩
  · intro c hc
    exact getChunksAux_mem N st.chunks 0 c hc
  · exact List.Pairwise.sublist (getChunksAux_sublist N st.chunks 0) hsorted
  · have := getChunksAux_length N st.chunks 0 (by norm_num)
    simpa using this

/-- Witness for claim C4 on a two-chunk log with from_seq 1. -/
theorem getEvents_fromSeq_filter_sorted_capped_wit :
    ∃ status chunks,
      serverGetEvents
        (⟨[("status", "completed")],
          [⟨1, "a", false, "", ""⟩, ⟨2, "b", true, "stop", ""⟩], 2⟩ : JobStore)
        (some 1) = Except.ok (status, chunks) ∧
      (∀ c ∈ chunks, (1 : Int) < c.seq) ∧
      chunks.Pairwise (fun a b => a.seq < b.seq) ∧
      chunks.length ≤ 1000 :=
  getEvents_fromSeq_filter_sorted_capped
    ⟨[("status", "completed")],
      [⟨1, "a", false, "", ""⟩, ⟨2, "b", true, "stop", ""⟩], 2⟩ 1
    (by decide) (by decide)

theorem streamStep_skips (s : Int) (m : List ChunkData)
    (h : ∀ c ∈ m, c.seq ≤ s) : streamStep s m = ([], s, false) := by
  induction m with
  | nil => rfl
  | cons c rest ih =>
    have hc : c.seq ≤ s := h c (List.mem_cons_self c rest)
    simp only [streamStep, if_pos hc]
    exact ih fun x hx => h x (List.mem_cons_of_mem c hx)

theorem streamStep_term_append (l m : List ChunkData) :
    ∀ s : Int, (streamStep s l).2.2 = true →
      streamStep s (l ++ m) = streamStep s l := by
  induction l with
  | nil => intro s h; simp [streamStep] at h
  | cons c rest ih =>
    intro s h
    by_cases hskip : c.seq ≤ s
    · simp only [List.cons_append, streamStep, if_pos hskip,
        List.append_eq] at h ⊢
      exact ih s h
    · by_cases herr : c.error ≠ ""
      · simp only [List.cons_append, streamStep, if_neg hskip, if_pos herr]
      · by_cases hdone : c.done
        · simp only [List.cons_append, streamStep, if_neg hskip,
            if_neg herr, hdone, ite_true]
        · simp only [List.cons_append, streamStep, if_neg hskip,
            if_neg herr, hdone, Bool.false_eq_true, ite_false,
            List.append_eq] at h ⊢
          rw [ih c.seq h]

theorem streamStep_nonterm_append (l m : List ChunkData) :
    ∀ s : Int, (streamStep s l).2.2 = false →
      streamStep s (l ++ m) =
        ((streamStep s l).1 ++ (streamStep (streamStep s l).2.1 m).1,
          (streamStep (streamStep s l).2.1 m).2) := by
  induction l with
  | nil => intro s _; simp [streamStep]
  | cons c rest ih =>
    intro s h
    by_cases hskip : c.seq ≤ s
    · simp only [List.cons_append, streamStep, if_pos hskip,
        List.append_eq] at h ⊢
      exact ih s h
    · by_cases herr : c.error ≠ ""
      · simp only [streamStep, if_neg hskip, if_pos herr,
          Bool.true_eq_false] at h
      · by_cases hdone : c.done
        · simp only [streamStep, if_neg hskip, if_neg herr, hdone,
            ite_true, Bool.true_eq_false] at h
        · simp only [List.cons_append, streamStep, if_neg hskip,
            if_neg herr, hdone, Bool.false_eq_true, ite_false,
            List.append_eq] at h ⊢
          rw [ih c.seq h]

theorem streamStep_cursor_mono (l : List ChunkData) :
    ∀ s : Int, s ≤ (streamStep s l).2.1 := by
  induction l with
  | nil => intro s; simp [streamStep]
  | cons c rest ih =>
    intro s
    by_cases hskip : c.seq ≤ s
    · simp only [streamStep, if_pos hskip]
      exact ih s
    · have hlt : s < c.seq := by omega
      by_cases herr : c.error ≠ ""
      · simp only [streamStep, if_neg hskip, if_pos herr]
        exact le_of_lt hlt
      · by_cases hdone : c.done
        · simp only [streamStep, if_neg hskip, if_neg herr, hdone, ite_true]
          exact le_of_lt hlt
        · simp only [streamStep, if_neg hskip, if_neg herr, hdone,
            Bool.false_eq_true, ite_false]
          exact le_of_lt (lt_of_lt_of_le hlt (ih c.seq))

theorem streamStep_nonterm_le (l : List ChunkData) :
    ∀ s : Int, (streamStep s l).2.2 = false →
      ∀ c ∈ l, c.seq ≤ (streamStep s l).2.1 := by
  induction l with
  | nil => intro s _ c hc; simp at hc
  | cons c rest ih =>
    intro s h x hx
    by_cases hskip : c.seq ≤ s
    · simp only [streamStep, if_pos hskip] at h ⊢
      rcases List.mem_cons.mp hx with h1 | h2
      · exact h1 ▸ le_trans hskip (streamStep_cursor_mono rest s)
      · exact ih s h x h2
    · by_cases herr : c.error ≠ ""
      · simp only [streamStep, if_neg hskip, if_pos herr,
          Bool.true_eq_false] at h
      · by_cases hdone : c.done
        · simp only [streamStep, if_neg hskip, if_neg herr, hdone,
            ite_true, Bool.true_eq_false] at h
        · simp only [streamStep, if_neg hskip, if_neg herr, hdone,
            Bool.false_eq_true, ite_false] at h ⊢
          rcases List.mem_cons.mp hx with h1 | h2
          · exact h1 ▸ streamStep_cursor_mono rest c.seq
          · exact ih c.seq h x h2

/-- Claim C7: the gateway streaming translation is idempotent under
replay.  First part: any prefix of chunks whose seq values are at or
below the current last_seq cursor is skipped and contributes no frame.
Second part: feeding the whole chunk list twice (a full replay) through
the translation from the initial cursor -1 produces exactly the frames
of a single pass over the list in seq order, so each delta is emitted
exactly once. -/
theorem gateway_stream_replay_idempotent :
    (∀ (s : Int) (pre post : List ChunkData), (∀ c ∈ pre, c.seq ≤ s) →
      streamEmit s (pre ++ post) = streamEmit s post) ∧
    (∀ l : List ChunkData, l.Pairwise (fun a b => a.seq < b.seq) →
      streamEmit (-1) (l ++ l) = streamEmit (-1) l) := by
  constructor
  · intro s pre post hpre
    unfold streamEmit
    have h5 : streamStep s pre = ([], s, false) := streamStep_skips s pre hpre
    have h2 := streamStep_nonterm_append pre post s (by rw [h5])
    rw [h2, h5]
    simp
  · intro l _
    unfold streamEmit
    by_cases ht : (streamStep (-1) l).2.2 = true
    · rw [streamStep_term_append l l (-1) ht]
    · have hf : (streamStep (-1) l).2.2 = false := by
        simpa using ht
      rw [streamStep_nonterm_append l l (-1) hf]
      rw [streamStep_skips ((streamStep (-1) l).2.1) l
        (streamStep_nonterm_le l (-1) hf)]
      simp

/-- Witness for claim C7: a replayed prefix is skipped and a full
replay of a three-chunk log emits each frame once. -/
theorem gateway_stream_replay_idempotent_wit :
    streamEmit 2 ([⟨1, "Hel", false, "", ""⟩, ⟨2, "lo", false, "", ""⟩] ++
      [⟨3, "", true, "stop", ""⟩]) =
      streamEmit 2 [⟨3, "", true, "stop", ""⟩] ∧
    streamEmit (-1) ([⟨1, "Hel", false, "", ""⟩, ⟨2, "lo", false, "", ""⟩,
        ⟨3, "", true, "stop", ""⟩] ++
      [⟨1, "Hel", false, "", ""⟩, ⟨2, "lo", false, "", ""⟩,
        ⟨3, "", true, "stop", ""⟩]) =
      streamEmit (-1) [⟨1, "Hel", false, "", ""⟩, ⟨2, "lo", false, "", ""⟩,
        ⟨3, "", true, "stop", ""⟩] :=
  ⟨gateway_stream_replay_idempotent.1 2
      [⟨1, "Hel", false, "", ""⟩, ⟨2, "lo", false, "", ""⟩]
      [⟨3, "", true, "stop", ""⟩] (by decide),
    gateway_stream_replay_idempotent.2
      [⟨1, "Hel", false, "", ""⟩, ⟨2, "lo", false, "", ""⟩,
        ⟨3, "", true, "stop", ""⟩] (by decide)⟩

theorem nsFold_run (l : List ChunkData) :
    ∀ (c : ChunkData) (s : Int) (buf fin : String),
      (∀ x ∈ l, x.done = false) → (∀ x ∈ l, x.error = "") →
      c.error = "" → c.done = true →
      (∀ x ∈ l ++ [c], s < x.seq) →
      (l ++ [c]).Pairwise (fun a b => a.seq < b.seq) →
      nsFold s buf fin (l ++ [c]) =
        Except.ok (c.seq, (l ++ [c]).foldl (fun b x => b ++ x.delta) buf,
          c.finishReason) := by
  induction l with
  | nil =>
    intro c s buf fin _ _ hce hcd hgt _
    have hs : ¬ c.seq ≤ s := by
      have := hgt c (by simp)
      omega
    simp [nsFold, hs, hce, hcd]
  | cons x rest ih =>
    intro c s buf fin hdone herr hce hcd hgt hsort
    have hx : ¬ x.seq ≤ s := by
      have := hgt x (by simp)
      omega
    have hxd : x.done = false := hdone x (List.mem_cons_self x rest)
    have hxe : x.error = "" := herr x (List.mem_cons_self x rest)
    have hsort3 : List.Pairwise (fun a b => a.seq < b.seq)
        (x :: (rest ++ [c])) := by
      simpa using hsort
    have hsort2 := List.pairwise_cons.mp hsort3
    simp only [List.cons_append, nsFold, if_neg hx, hxe, hxd,
      Bool.false_eq_true, ite_false, List.append_eq]
    rw [if_neg (by simp)]
    rw [ih c x.seq (buf ++ x.delta) fin
      (fun y hy => hdone y (List.mem_cons_of_mem x hy))
      (fun y hy => herr y (List.mem_cons_of_mem x hy)) hce hcd
      hsort2.1 hsort2.2]
    simp [List.foldl_cons]

/-- Claim C8: a non-streaming request whose job completes is answered
with a single envelope whose content is the concatenation of all chunk
deltas in seq order and whose finish_reason comes from the done chunk;
a job that ends failed or cancelled is answered 500; exhausting the
overall deadline is answered 504. -/
theorem nonstreaming_aggregation_envelope (l : List ChunkData)
    (c : ChunkData)
    (hdone : ∀ x ∈ l, x.done = false) (herr : ∀ x ∈ l, x.error = "")
    (hce : c.error = "") (hcd : c.done = true)
    (hpos : ∀ x ∈ l ++ [c], -1 < x.seq)
    (hsort : (l ++ [c]).Pairwise (fun a b => a.seq < b.seq)) :
    handleNonStreamingPolls (-1) "" "" [⟨"completed", l ++ [c]⟩] =
      NSOutcome.envelope ((l ++ [c]).foldl (fun b x => b ++ x.delta) "")
        c.finishReason ∧
    handleNonStreamingPolls (-1) "" "" [⟨"failed", []⟩] =
      NSOutcome.httpError 500 "job failed" ∧
    handleNonStreamingPolls (-1) "" "" [⟨"cancelled", []⟩] =
      NSOutcome.httpError 500 "job cancelled" ∧
    handleNonStreamingPolls (-1) "" "" ([] : List PollResp) =
      NSOutcome.httpError 504 "timeout exceeded" := by
  refine ⟨?_, by decide, by decide, rfl⟩
  simp only [handleNonStreamingPolls]
  rw [nsFold_run l c (-1) "" "" hdone herr hce hcd hpos hsort]
  simp

/-- Witness for claim C8 on the three-chunk happy-path log. -/
theorem nonstreaming_aggregation_envelope_wit :
    handleNonStreamingPolls (-1) "" ""
      [⟨"completed",
        ([⟨1, "Hel", false, "", ""⟩, ⟨2, "lo", false, "", ""⟩] :
          List ChunkData) ++ [⟨3, "", true, "stop", ""⟩]⟩] =
      NSOutcome.envelope
        ((([⟨1, "Hel", false, "", ""⟩, ⟨2, "lo", false, "", ""⟩] :
          List ChunkData) ++ ([⟨3, "", true, "stop", ""⟩] :
          List ChunkData)).foldl
          (fun (b : String) (x : ChunkData) => b ++ x.delta) "")
        (⟨3, "", true, "stop", ""⟩ : ChunkData).finishReason ∧
    handleNonStreamingPolls (-1) "" "" [⟨"failed", []⟩] =
      NSOutcome.httpError 500 "job failed" ∧
    handleNonStreamingPolls (-1) "" "" [⟨"cancelled", []⟩] =
      NSOutcome.httpError 500 "job cancelled" ∧
    handleNonStreamingPolls (-1) "" "" ([] : List PollResp) =
      NSOutcome.httpError 504 "timeout exceeded" :=
  nonstreaming_aggregation_envelope
    [⟨1, "Hel", false, "", ""⟩, ⟨2, "lo", false, "", ""⟩]
    ⟨3, "", true, "stop", ""⟩ (by decide) (by decide) (by decide)
    (by decide) (by decide) (by decide)

/-- Claim C9: with key checking enabled, the gateway accepts any
nonempty Authorization header that equals the configured key after
stripping one leading Bearer prefix; in particular a header holding the
bare key without the Bearer scheme is accepted, and with an empty
configured key the header consisting of exactly the Bearer prefix is
accepted. -/
theorem validateAuth_trimBearer_accepts :
    (∀ key hdr : String, hdr ≠ "" → goTrimPfx "Bearer " hdr = key →
      validateAuth true key hdr = Except.ok ()) ∧
    (∀ key : String, key ≠ "" →
      ("Bearer ".data.isPrefixOf key.data) = false →
      validateAuth true key key = Except.ok ()) ∧
    validateAuth true "" "Bearer " = Except.ok () := by
  refine ⟨?_, ?_, by decide⟩
  · intro key hdr h1 h2
    simp [validateAuth, h1, h2]
  · intro key h1 h2
    have h3 : goTrimPfx "Bearer " key = key := by
      simp [goTrimPfx, h2]
    simp [validateAuth, h1, h3]

/-- Witness for claim C9 on a concrete key, with and without the Bearer
scheme, and with the empty key. -/
theorem validateAuth_trimBearer_accepts_wit :
    validateAuth true "sk-key" "Bearer sk-key" = Except.ok () ∧
    validateAuth true "sk-key" "sk-key" = Except.ok () ∧
    validateAuth true "" "Bearer " = Except.ok () :=
  ⟨validateAuth_trimBearer_accepts.1 "sk-key" "Bearer sk-key" (by decide)
      (by decide),
    validateAuth_trimBearer_accepts.2.1 "sk-key" (by decide) (by decide),
    validateAuth_trimBearer_accepts.2.2⟩
